import Mathlib

/-
Shallow embedding of the master-side batch dispatcher of url2pdf
(src/url2pdf.js): task registry, worker pool, assignment, per-task
timeout, completion check and worker-exit recovery, together with the
artifact-name construction performed by the worker side.

The master keeps its state in module-level mutable variables
(taskStatus, workerStatus, pdfInfo, counters, taskQueue, startTimes,
inProgress, the console interval and cluster.workers); these become the
fields of `MasterState`.  Each event handler of the source becomes a
state-transformer function, and the asynchronous event loop becomes the
`Step` relation / `Reachable` closure.
-/

namespace Url2pdf

/-- Job status, the four values taken by `taskStatus[i].status`
("Pending", "In Progress", "Completed", "Timed Out"). -/
inductive TStatus where
  | Pending
  | InProgress
  | Completed
  | TimedOut
deriving DecidableEq

/-- One entry of the `taskStatus` array (the `id` and `duration` fields
of the source are presentation-only and not tracked). -/
structure TaskEntry where
  status : TStatus
  progress : Nat
deriving DecidableEq

/-- One entry of the `taskQueue` array: `{ url, index }`. -/
structure QTask where
  url : String
  index : Nat
deriving DecidableEq

/-- JS object used as a map: set `m[k] = v`. -/
def mapSet {α : Type} (m : List (Nat × α)) (k : Nat) (v : α) : List (Nat × α) :=
  (k, v) :: m.filter (fun p => decide (p.1 ≠ k))

/-- JS object used as a map: read `m[k]`. -/
def mapGet {α : Type} (m : List (Nat × α)) (k : Nat) : Option α :=
  (m.find? (fun p => decide (p.1 = k))).map Prod.snd

/-- JS `delete m[k]`. -/
def mapDel {α : Type} (m : List (Nat × α)) (k : Nat) : List (Nat × α) :=
  m.filter (fun p => decide (p.1 ≠ k))

/-- JS `Set.add`: no effect when the element is already present. -/
def setAdd (s : List Nat) (x : Nat) : List Nat :=
  if x ∈ s then s else x :: s

/-- JS `Set.delete`: removes the element. -/
def setDel (s : List Nat) (x : Nat) : List Nat :=
  s.filter (fun y => decide (y ≠ x))

/-- In-place mutation `taskStatus[i] := f (taskStatus[i])`; no effect
out of range. -/
def updTask : List TaskEntry → Nat → (TaskEntry → TaskEntry) → List TaskEntry
  | [], _, _ => []
  | t :: ts, 0, f => f t :: ts
  | t :: ts, n + 1, f => t :: updTask ts n f

/-- The whole mutable state of the master process. -/
structure MasterState where
  /-- the global `urls` list read from the spreadsheet -/
  urls : List String
  /-- `taskStatus` -/
  tasks : List TaskEntry
  /-- `workerStatus` -/
  workerStatus : List (Nat × String)
  /-- `pdfInfo` -/
  pdfInfo : List (Nat × String)
  /-- `completedTasks` -/
  completedTasks : Nat
  /-- `timedOutTasks` -/
  timedOutTasks : Nat
  /-- `totalProcessedTasks` -/
  totalProcessedTasks : Nat
  /-- `taskQueue` -/
  taskQueue : List QTask
  /-- `startTimes` -/
  startTimes : List (Nat × Nat)
  /-- `inProgress` -/
  inProgress : List Nat
  /-- armed `setTimeout` watchdogs, as (task index, workerId) pairs -/
  timers : List (Nat × Nat)
  /-- whether the `consoleUpdateInterval` is still running -/
  intervalActive : Bool
  /-- how many times the final summary block of `checkCompletion` ran -/
  finalEmits : Nat
  /-- ids of the live entries of `cluster.workers` -/
  workers : List Nat
  /-- forked workers whose `online` event has not fired yet -/
  pendingOnline : List Nat
  /-- next id `cluster.fork()` will hand out -/
  nextWorkerId : Nat
  /-- messages sent to workers: (workerId, task) -/
  sent : List (Nat × QTask)
  /-- `cluster.workers[workerId].send` threw on a missing worker -/
  crashed : Bool
deriving DecidableEq

/-- `checkCompletion()` (src/url2pdf.js): when every task has been
processed, stop the console interval, run the final console update and
summary logs, and kill every remaining worker. -/
def checkCompletion (s : MasterState) : MasterState :=
  if s.totalProcessedTasks = s.urls.length then
    { s with intervalActive := false
             finalEmits := s.finalEmits + 1
             workers := [] }
  else s

/-- `assignTask(workerId)` (src/url2pdf.js): pop the queue head, record
the start time, add the index to `inProgress`, mark the entry
In Progress at 10%, send the task to the worker and arm the watchdog.
`cluster.workers[workerId].send` throws when the worker does not exist;
the statements before it have executed by then and the timer is never
armed. -/
def assignTask (now : Nat) (workerId : Nat) (s : MasterState) : MasterState :=
  match s.taskQueue with
  | [] => s
  | task :: rest =>
    let s1 : MasterState :=
      { s with taskQueue := rest
               startTimes := mapSet s.startTimes task.index now
               inProgress := setAdd s.inProgress task.index
               tasks := updTask s.tasks task.index
                 (fun t => { t with status := .InProgress, progress := 10 }) }
    if workerId ∈ s.workers then
      { s1 with sent := s1.sent ++ [(workerId, task)]
                timers := s1.timers ++ [(task.index, workerId)] }
    else
      { s1 with crashed := true }

/-- Body of the `setTimeout` callback armed by `assignTask`: if the task
is still in `inProgress`, mark it Timed Out at 0%, bump the timed-out
and total-processed counters, run `checkCompletion()` and immediately
reassign the same worker. -/
def timeoutBody (now : Nat) (idx : Nat) (workerId : Nat) (s : MasterState) : MasterState :=
  if idx ∈ s.inProgress then
    let s1 : MasterState :=
      { s with inProgress := setDel s.inProgress idx
               tasks := updTask s.tasks idx
                 (fun t => { t with status := .TimedOut, progress := 0 })
               timedOutTasks := s.timedOutTasks + 1
               totalProcessedTasks := s.totalProcessedTasks + 1 }
    assignTask now workerId (checkCompletion s1)
  else s

/-- A one-shot timer consumes its `timers` entry when it fires, then
runs the callback body. -/
def fireTimer (now : Nat) (idx : Nat) (workerId : Nat) (s : MasterState) : MasterState :=
  timeoutBody now idx workerId { s with timers := s.timers.erase (idx, workerId) }

/-- Modelled from the spec: the master-side listener for worker
messages is missing from src/url2pdf.js (the workers send `status`,
`progress` and `completed` messages and the master declares the
`completedTasks` counter and `pdfInfo` map they drive, but no handler
is registered).  Per the spec, on `Completed(jobId, artifact)`: if the
job is still In Progress, disarm its timer, set status Completed,
record the artifact, increment the completed and total-processed
counters, call the completion check, then free the slot and call
assign on the worker; if the job is already terminal, record the
artifact for diagnostics only and alter nothing else. -/
def handleCompleted (now : Nat) (idx : Nat) (workerId : Nat) (art : String)
    (s : MasterState) : MasterState :=
  match s.tasks[idx]? with
  | none => s
  | some t =>
    if t.status = .InProgress then
      let s1 : MasterState :=
        { s with timers := s.timers.filter (fun p => decide (p.1 ≠ idx))
                 inProgress := setDel s.inProgress idx
                 tasks := updTask s.tasks idx (fun u => { u with status := .Completed })
                 pdfInfo := mapSet s.pdfInfo idx art
                 completedTasks := s.completedTasks + 1
                 totalProcessedTasks := s.totalProcessedTasks + 1 }
      assignTask now workerId (checkCompletion s1)
    else
      { s with pdfInfo := mapSet s.pdfInfo idx art }

/-- Modelled from the spec: part of the same missing master-side
listener.  On `Progress(jobId, p)`, update the registry only if the
job status is In Progress; late progress for a terminal job is
ignored. -/
def handleProgress (idx : Nat) (p : Nat) (s : MasterState) : MasterState :=
  match s.tasks[idx]? with
  | none => s
  | some t =>
    if t.status = .InProgress then
      { s with tasks := updTask s.tasks idx (fun u => { u with progress := p }) }
    else s

/-- Modelled from the spec: part of the same missing master-side
listener.  A `Status(text)` message from a worker updates that
worker's entry of the status map. -/
def handleStatusMsg (workerId : Nat) (txt : String) (s : MasterState) : MasterState :=
  { s with workerStatus := mapSet s.workerStatus workerId txt }

/-- The `cluster.on('exit')` handler (src/url2pdf.js): the exited
worker leaves `cluster.workers`, its `workerStatus` entry is deleted,
and when the queue or the in-progress set is non-empty one replacement
worker is forked, marked Idle, with its `online` callback pending. -/
def handleExit (workerId : Nat) (s : MasterState) : MasterState :=
  let s0 : MasterState :=
    { s with workers := setDel s.workers workerId
             pendingOnline := setDel s.pendingOnline workerId
             workerStatus := mapDel s.workerStatus workerId }
  if s0.taskQueue.length > 0 ∨ s0.inProgress.length > 0 then
    { s0 with workers := s0.workers ++ [s0.nextWorkerId]
              workerStatus := mapSet s0.workerStatus s0.nextWorkerId "Idle"
              pendingOnline := s0.pendingOnline ++ [s0.nextWorkerId]
              nextWorkerId := s0.nextWorkerId + 1 }
  else s0

/-- The `online` callback attached to each forked worker: it fires once
and calls `assignTask(worker.id)`. -/
def handleOnline (now : Nat) (workerId : Nat) (s : MasterState) : MasterState :=
  assignTask now workerId { s with pendingOnline := setDel s.pendingOnline workerId }

/-- The master's startup state (src/url2pdf.js, `cluster.isMaster`
branch): one Pending task per url, the queue holding every url with
its index, and `numCPUs` workers forked unconditionally, each Idle
with its `online` callback pending. -/
def initMaster (urls : List String) (numCPUs : Nat) : MasterState :=
  { urls := urls
    tasks := urls.map (fun _ => { status := .Pending, progress := 0 })
    workerStatus := (List.range numCPUs).map (fun i => (i + 1, "Idle"))
    pdfInfo := []
    completedTasks := 0
    timedOutTasks := 0
    totalProcessedTasks := 0
    taskQueue := urls.enum.map (fun p => { url := p.2, index := p.1 })
    startTimes := []
    inProgress := []
    timers := []
    intervalActive := true
    finalEmits := 0
    workers := (List.range numCPUs).map (fun i => i + 1)
    pendingOnline := (List.range numCPUs).map (fun i => i + 1)
    nextWorkerId := numCPUs + 1
    sent := []
    crashed := false }

/-- The asynchronous events the master's event loop can process. -/
inductive MEvent where
  | online (now workerId : Nat)
  | exited (workerId : Nat)
  | timer (now idx workerId : Nat)
  | completed (now idx workerId : Nat) (art : String)
  | progressMsg (idx p : Nat)
  | statusMsg (workerId : Nat) (txt : String)

/-- One event-loop step of the master.  Timers only fire while armed,
`online` fires once per forked worker, exit events concern live
workers, and worker messages carry an index of a real task from a live
worker.  No step leaves a crashed (uncaught-exception) state. -/
inductive Step : MasterState → MEvent → MasterState → Prop where
  | online {s : MasterState} {now workerId : Nat}
      (h1 : workerId ∈ s.pendingOnline) (h2 : workerId ∈ s.workers)
      (hc : s.crashed = false) :
      Step s (.online now workerId) (handleOnline now workerId s)
  | exited {s : MasterState} {workerId : Nat}
      (h : workerId ∈ s.workers) (hc : s.crashed = false) :
      Step s (.exited workerId) (handleExit workerId s)
  | timer {s : MasterState} {now idx workerId : Nat}
      (h : (idx, workerId) ∈ s.timers) (hc : s.crashed = false) :
      Step s (.timer now idx workerId) (fireTimer now idx workerId s)
  | completed {s : MasterState} {now idx workerId : Nat} {art : String}
      (h1 : idx < s.tasks.length) (h2 : workerId ∈ s.workers)
      (hc : s.crashed = false) :
      Step s (.completed now idx workerId art) (handleCompleted now idx workerId art s)
  | progressMsg {s : MasterState} {idx p : Nat}
      (h : idx < s.tasks.length) (hc : s.crashed = false) :
      Step s (.progressMsg idx p) (handleProgress idx p s)
  | statusMsg {s : MasterState} {workerId : Nat} {txt : String}
      (hc : s.crashed = false) :
      Step s (.statusMsg workerId txt) (handleStatusMsg workerId txt s)

/-- States the master can reach from startup. -/
inductive Reachable (urls : List String) (numCPUs : Nat) : MasterState → Prop where
  | init : Reachable urls numCPUs (initMaster urls numCPUs)
  | step {s s2 : MasterState} {e : MEvent} :
      Reachable urls numCPUs s → Step s e s2 → Reachable urls numCPUs s2

/-- `String.padStart(2, '0')` as used on the date and index parts of
the file name. -/
def padStart2 (s : String) : String :=
  String.mk (List.replicate (2 - s.length) '0') ++ s

/-- The artifact file name built by `processUrl` (src/url2pdf.js,
worker branch): zero-padded month (`getMonth()` is 0-based, hence the
`+ 1`), zero-padded day, a hyphen, the zero-padded 1-based task index,
and the `.pdf` extension. -/
def fileNameFor (monthZeroBased : Nat) (day : Nat) (index : Nat) : String :=
  padStart2 (toString (monthZeroBased + 1)) ++ padStart2 (toString day)
    ++ "-" ++ padStart2 (toString (index + 1)) ++ ".pdf"

/-- The artifact-name format as the spec words it: the two-digit month
concatenated with the two-digit day, a hyphen, the 1-based job index
padded to two digits, and the `.pdf` extension (`MMDD-NN.pdf`). -/
def specArtifactName (month : Nat) (day : Nat) (jobIndex : Nat) : String :=
  padStart2 (toString month) ++ padStart2 (toString day)
    ++ "-" ++ padStart2 (toString (jobIndex + 1)) ++ ".pdf"

/-- Number of tasks currently holding a given status. -/
def statusCount (ts : List TaskEntry) (st : TStatus) : Nat :=
  (ts.filter (fun t => decide (t.status = st))).length

/-- The state invariant maintained by every event handler: the task
array matches the url list, the counters count exactly the terminal
tasks, the `inProgress` set holds exactly the In Progress indices, the
queue holds exactly the Pending tasks (each once), and worker ids are
unique and below the fork counter. -/
structure Inv (s : MasterState) : Prop where
  tasksLen : s.tasks.length = s.urls.length
  compCount : s.completedTasks = statusCount s.tasks .Completed
  toCount : s.timedOutTasks = statusCount s.tasks .TimedOut
  totalEq : s.totalProcessedTasks = s.completedTasks + s.timedOutTasks
  inProgMem : ∀ i ∈ s.inProgress, ∃ t, s.tasks[i]? = some t ∧ t.status = .InProgress
  inProgInv : ∀ i t, s.tasks[i]? = some t → t.status = .InProgress → i ∈ s.inProgress
  queueMem : ∀ q ∈ s.taskQueue, ∃ t, s.tasks[q.index]? = some t ∧ t.status = .Pending
  queueInv : ∀ i t, s.tasks[i]? = some t → t.status = .Pending →
    i ∈ s.taskQueue.map QTask.index
  queueNodup : (s.taskQueue.map QTask.index).Nodup
  workersLt : ∀ w ∈ s.workers, w < s.nextWorkerId
  workersNodup : s.workers.Nodup

/-- Two-url, one-worker run: startup state. -/
def exA0 : MasterState := initMaster ["a", "b"] 1

/-- Two-url run after worker 1 comes online: task 0 In Progress. -/
def exA1 : MasterState := handleOnline 5 1 exA0

/-- Two-url run after task 0's watchdog fires: task 0 Timed Out,
task 1 reassigned to worker 1. -/
def exA2 : MasterState := fireTimer 400 0 1 exA1

/-- Single-url, one-worker run: startup state. -/
def exB0 : MasterState := initMaster ["a"] 1

/-- Single-url run after worker 1 comes online: task 0 In Progress. -/
def exB1 : MasterState := handleOnline 3 1 exB0

/-- Single-url run after the watchdog fires: the lone task Timed Out,
every task processed, shutdown fired. -/
def exB2 : MasterState := fireTimer 301 0 1 exB1

/-- Two-url run where worker 1 exits after taking task 0: its slot is
gone but task 0's watchdog is still armed and task 1 still queued. -/
def exD1 : MasterState := handleExit 1 exA1

/-- The watchdog of task 0 then fires and `assignTask(1)` dereferences
the deleted `cluster.workers[1]`. -/
def exD2 : MasterState := fireTimer 310 0 1 exD1

/-- A state whose every task has been processed, used to exercise
`checkCompletion` directly. -/
def exFull : MasterState :=
  { urls := ["a"]
    tasks := [{ status := .TimedOut, progress := 0 }]
    workerStatus := [(1, "Idle")]
    pdfInfo := []
    completedTasks := 0
    timedOutTasks := 1
    totalProcessedTasks := 1
    taskQueue := []
    startTimes := [(0, 3)]
    inProgress := []
    timers := []
    intervalActive := true
    finalEmits := 0
    workers := [1]
    pendingOnline := []
    nextWorkerId := 2
    sent := []
    crashed := false }

/-! ### Helper lemmas about the small container operations -/

theorem updTask_length (ts : List TaskEntry) (i : Nat) (f : TaskEntry → TaskEntry) :
    (updTask ts i f).length = ts.length := by
  induction ts generalizing i with
  | nil => rfl
  | cons t ts ih =>
    cases i with
    | zero => rfl
    | succ n => simpa [updTask] using ih n

theorem getElem?_updTask_self {ts : List TaskEntry} {i : Nat} {t : TaskEntry}
    (f : TaskEntry → TaskEntry) (h : ts[i]? = some t) :
    (updTask ts i f)[i]? = some (f t) := by
  induction ts generalizing i with
  | nil => simp at h
  | cons a ts ih =>
    cases i with
    | zero =>
      simp only [List.getElem?_cons_zero, Option.some.injEq] at h
      simp [updTask, h]
    | succ n =>
      simp only [List.getElem?_cons_succ] at h
      simpa [updTask] using ih h

theorem getElem?_updTask_ne {ts : List TaskEntry} {i j : Nat}
    (f : TaskEntry → TaskEntry) (h : j ≠ i) :
    (updTask ts i f)[j]? = ts[j]? := by
  induction ts generalizing i j with
  | nil => rfl
  | cons a ts ih =>
    cases i with
    | zero =>
      cases j with
      | zero => exact absurd rfl h
      | succ m => simp [updTask]
    | succ n =>
      cases j with
      | zero => simp [updTask]
      | succ m =>
        simp only [updTask, List.getElem?_cons_succ]
        exact ih (fun hc => h (by omega))

theorem statusCount_cons (t : TaskEntry) (ts : List TaskEntry) (st : TStatus) :
    statusCount (t :: ts) st = (if t.status = st then 1 else 0) + statusCount ts st := by
  by_cases h : t.status = st <;> simp [statusCount, List.filter_cons, h, Nat.add_comm]

theorem statusCount_updTask {ts : List TaskEntry} {i : Nat} {t : TaskEntry}
    (f : TaskEntry → TaskEntry) (st : TStatus) (h : ts[i]? = some t) :
    statusCount (updTask ts i f) st + (if t.status = st then 1 else 0)
      = statusCount ts st + (if (f t).status = st then 1 else 0) := by
  induction ts generalizing i with
  | nil => simp at h
  | cons a ts ih =>
    cases i with
    | zero =>
      simp only [List.getElem?_cons_zero, Option.some.injEq] at h
      subst h
      simp only [updTask, statusCount_cons]
      omega
    | succ n =>
      simp only [List.getElem?_cons_succ] at h
      simp only [updTask, statusCount_cons]
      have := ih h
      omega

theorem statusCount_updTask_of_ne {ts : List TaskEntry} {i : Nat} {t : TaskEntry}
    {f : TaskEntry → TaskEntry} {st : TStatus} (h : ts[i]? = some t)
    (h1 : t.status ≠ st) (h2 : (f t).status ≠ st) :
    statusCount (updTask ts i f) st = statusCount ts st := by
  have := statusCount_updTask f st h
  simp [h1, h2] at this
  exact this

theorem statusCount_updTask_succ {ts : List TaskEntry} {i : Nat} {t : TaskEntry}
    {f : TaskEntry → TaskEntry} {st : TStatus} (h : ts[i]? = some t)
    (h1 : t.status ≠ st) (h2 : (f t).status = st) :
    statusCount (updTask ts i f) st = statusCount ts st + 1 := by
  have := statusCount_updTask f st h
  simp [h1, h2] at this
  omega

theorem statusCount_updTask_same {ts : List TaskEntry} {i : Nat} {t : TaskEntry}
    {f : TaskEntry → TaskEntry} (h : ts[i]? = some t)
    (hst : (f t).status = t.status) (st : TStatus) :
    statusCount (updTask ts i f) st = statusCount ts st := by
  have := statusCount_updTask f st h
  rw [hst] at this
  omega

theorem statusCount_pair_le (ts : List TaskEntry) :
    statusCount ts .Completed + statusCount ts .TimedOut ≤ ts.length := by
  induction ts with
  | nil => simp [statusCount]
  | cons t ts ih =>
    simp only [statusCount_cons, List.length_cons]
    cases h : t.status <;> simp [h] <;> omega

theorem terminal_of_counts {ts : List TaskEntry}
    (h : statusCount ts .Completed + statusCount ts .TimedOut = ts.length) :
    ∀ t ∈ ts, t.status = .Completed ∨ t.status = .TimedOut := by
  induction ts with
  | nil => simp
  | cons a ts ih =>
    intro t ht
    have hle := statusCount_pair_le ts
    simp only [statusCount_cons, List.length_cons] at h
    cases ha : a.status with
    | Pending => simp [ha] at h; omega
    | InProgress => simp [ha] at h; omega
    | Completed =>
      rcases List.mem_cons.mp ht with rfl | hmem
      · exact Or.inl ha
      · exact ih (by simp [ha] at h; omega) t hmem
    | TimedOut =>
      rcases List.mem_cons.mp ht with rfl | hmem
      · exact Or.inr ha
      · exact ih (by simp [ha] at h; omega) t hmem

theorem mem_setDel {s : List Nat} {x y : Nat} :
    y ∈ setDel s x ↔ y ∈ s ∧ y ≠ x := by
  simp [setDel, List.mem_filter]

theorem mem_setAdd {s : List Nat} {x y : Nat} :
    y ∈ setAdd s x ↔ y = x ∨ y ∈ s := by
  unfold setAdd
  split
  · constructor
    · exact Or.inr
    · rintro (rfl | hy)
      · assumption
      · assumption
  · simp [List.mem_cons]

theorem mapGet_mapSet_self {α : Type} (m : List (Nat × α)) (k : Nat) (v : α) :
    mapGet (mapSet m k v) k = some v := by
  simp [mapGet, mapSet, List.find?]

theorem mapGet_mapSet_ne {α : Type} (m : List (Nat × α)) {j k : Nat} (v : α)
    (h : j ≠ k) : mapGet (mapSet m k v) j = mapGet m j := by
  simp only [mapGet, mapSet]
  rw [List.find?_cons_of_neg _ (by simp; exact Ne.symm h)]
  congr 1
  induction m with
  | nil => rfl
  | cons p m ih =>
    by_cases hp : p.1 = k
    · rw [List.filter_cons_of_neg (by simp [hp]), List.find?_cons_of_neg _ (by simp [hp]; exact Ne.symm h)]
      exact ih
    · rw [List.filter_cons_of_pos (by simp [hp])]
      by_cases hj : p.1 = j
      · rw [List.find?_cons_of_pos _ (by simp [hj]), List.find?_cons_of_pos _ (by simp [hj])]
      · rw [List.find?_cons_of_neg _ (by simp [hj]), List.find?_cons_of_neg _ (by simp [hj])]
        exact ih

theorem mapGet_mapDel_self {α : Type} (m : List (Nat × α)) (k : Nat) :
    mapGet (mapDel m k) k = none := by
  induction m with
  | nil => rfl
  | cons p m ih =>
    by_cases hp : p.1 = k
    · rw [mapDel, List.filter_cons_of_neg (by simp [hp])]
      simpa [mapGet, mapDel] using ih
    · rw [mapDel, List.filter_cons_of_pos (by simp [hp]), mapGet,
        List.find?_cons_of_neg _ (by simp [hp])]
      simpa [mapGet, mapDel] using ih

/-! ### Unfolding lemmas for the handlers -/

theorem checkCompletion_eq_pos {s : MasterState}
    (h : s.totalProcessedTasks = s.urls.length) :
    checkCompletion s =
      { s with intervalActive := false
               finalEmits := s.finalEmits + 1
               workers := [] } := by
  simp [checkCompletion, h]

theorem checkCompletion_eq_neg {s : MasterState}
    (h : s.totalProcessedTasks ≠ s.urls.length) :
    checkCompletion s = s := by
  simp [checkCompletion, h]

theorem assignTask_nil {s : MasterState} (now workerId : Nat)
    (h : s.taskQueue = []) : assignTask now workerId s = s := by
  simp [assignTask, h]

theorem assignTask_cons {s : MasterState} {task : QTask} {rest : List QTask}
    (now : Nat) {workerId : Nat} (h : s.taskQueue = task :: rest)
    (hw : workerId ∈ s.workers) :
    assignTask now workerId s =
      { s with taskQueue := rest
               startTimes := mapSet s.startTimes task.index now
               inProgress := setAdd s.inProgress task.index
               tasks := updTask s.tasks task.index
                 (fun t => { t with status := .InProgress, progress := 10 })
               sent := s.sent ++ [(workerId, task)]
               timers := s.timers ++ [(task.index, workerId)] } := by
  simp [assignTask, h, hw]

theorem assignTask_cons_crash {s : MasterState} {task : QTask} {rest : List QTask}
    (now : Nat) {workerId : Nat} (h : s.taskQueue = task :: rest)
    (hw : workerId ∉ s.workers) :
    assignTask now workerId s =
      { s with taskQueue := rest
               startTimes := mapSet s.startTimes task.index now
               inProgress := setAdd s.inProgress task.index
               tasks := updTask s.tasks task.index
                 (fun t => { t with status := .InProgress, progress := 10 })
               crashed := true } := by
  simp [assignTask, h, hw]

/-! ### Preservation of the invariant -/

theorem inv_transport {s s2 : MasterState} (h : Inv s)
    (htasks : s2.tasks = s.tasks) (hurls : s2.urls = s.urls)
    (hcomp : s2.completedTasks = s.completedTasks)
    (hto : s2.timedOutTasks = s.timedOutTasks)
    (htot : s2.totalProcessedTasks = s.totalProcessedTasks)
    (hip : s2.inProgress = s.inProgress)
    (hq : s2.taskQueue = s.taskQueue)
    (hw : s2.workers = s.workers)
    (hn : s2.nextWorkerId = s.nextWorkerId) : Inv s2 := by
  refine ⟨?_, ?_, ?_, ?_, ?_, ?_, ?_, ?_, ?_, ?_, ?_⟩
  · rw [htasks, hurls]; exact h.tasksLen
  · rw [htasks, hcomp]; exact h.compCount
  · rw [htasks, hto]; exact h.toCount
  · rw [htot, hcomp, hto]; exact h.totalEq
  · rw [hip, htasks]; exact h.inProgMem
  · rw [hip, htasks]; exact h.inProgInv
  · rw [hq, htasks]; exact h.queueMem
  · rw [hq, htasks]; exact h.queueInv
  · rw [hq]; exact h.queueNodup
  · rw [hw, hn]; exact h.workersLt
  · rw [hw]; exact h.workersNodup

theorem inv_checkCompletion {s : MasterState} (h : Inv s) : Inv (checkCompletion s) := by
  unfold checkCompletion
  split
  · exact ⟨h.tasksLen, h.compCount, h.toCount, h.totalEq, h.inProgMem, h.inProgInv,
      h.queueMem, h.queueInv, h.queueNodup, by simp, by simp⟩
  · exact h

theorem inv_assignTask (now workerId : Nat) {s : MasterState} (h : Inv s) :
    Inv (assignTask now workerId s) := by
  cases hq : s.taskQueue with
  | nil => rw [assignTask_nil now workerId hq]; exact h
  | cons task rest =>
    obtain ⟨t, hget, hPend⟩ := h.queueMem task (by rw [hq]; exact List.mem_cons_self _ _)
    have hnin : task.index ∉ s.inProgress := by
      intro hmem
      obtain ⟨u, hu, hIP⟩ := h.inProgMem _ hmem
      rw [hget] at hu
      cases hu
      rw [hPend] at hIP
      cases hIP
    have hqn := h.queueNodup
    rw [hq, List.map_cons, List.nodup_cons] at hqn
    have key : Inv
        { s with taskQueue := rest
                 startTimes := mapSet s.startTimes task.index now
                 inProgress := setAdd s.inProgress task.index
                 tasks := updTask s.tasks task.index
                   (fun t => { t with status := .InProgress, progress := 10 }) } := by
      have hAdd : setAdd s.inProgress task.index = task.index :: s.inProgress := by
        simp [setAdd, hnin]
      refine ⟨?_, ?_, ?_, ?_, ?_, ?_, ?_, ?_, ?_, h.workersLt, h.workersNodup⟩
      · show (updTask s.tasks task.index _).length = s.urls.length
        rw [updTask_length]; exact h.tasksLen
      · show s.completedTasks = statusCount (updTask s.tasks task.index _) .Completed
        rw [statusCount_updTask_of_ne hget (by rw [hPend]; intro hc; cases hc)
          (by intro hc; cases hc)]
        exact h.compCount
      · show s.timedOutTasks = statusCount (updTask s.tasks task.index _) .TimedOut
        rw [statusCount_updTask_of_ne hget (by rw [hPend]; intro hc; cases hc)
          (by intro hc; cases hc)]
        exact h.toCount
      · exact h.totalEq
      · show ∀ i ∈ setAdd s.inProgress task.index, _
        rw [hAdd]
        intro i hi
        rcases List.mem_cons.mp hi with rfl | hi
        · exact ⟨_, getElem?_updTask_self _ hget, rfl⟩
        · obtain ⟨u, hu, hIP⟩ := h.inProgMem i hi
          have hne : i ≠ task.index := by
            rintro rfl
            rw [hget] at hu
            cases hu
            rw [hPend] at hIP
            cases hIP
          exact ⟨u, by rw [getElem?_updTask_ne _ hne]; exact hu, hIP⟩
      · show ∀ i u, _ → _ → i ∈ setAdd s.inProgress task.index
        rw [hAdd]
        intro i u hu hIP
        by_cases hne : i = task.index
        · subst hne; exact List.mem_cons_self _ _
        · rw [getElem?_updTask_ne _ hne] at hu
          exact List.mem_cons_of_mem _ (h.inProgInv i u hu hIP)
      · intro q hqm
        obtain ⟨u, hu, hP⟩ := h.queueMem q (by rw [hq]; exact List.mem_cons_of_mem _ hqm)
        have hne : q.index ≠ task.index := by
          intro hc
          exact hqn.1 (hc ▸ List.mem_map_of_mem QTask.index hqm)
        exact ⟨u, by rw [getElem?_updTask_ne _ hne]; exact hu, hP⟩
      · intro i u hu hP
        by_cases hne : i = task.index
        · subst hne
          rw [getElem?_updTask_self _ hget] at hu
          cases hu
          cases hP
        · rw [getElem?_updTask_ne _ hne] at hu
          have := h.queueInv i u hu hP
          rw [hq, List.map_cons] at this
          rcases List.mem_cons.mp this with hc | hmem
          · exact absurd hc hne
          · exact hmem
      · exact hqn.2
    unfold assignTask
    rw [hq]
    dsimp only
    split
    · exact inv_transport key rfl rfl rfl rfl rfl rfl rfl rfl rfl
    · exact inv_transport key rfl rfl rfl rfl rfl rfl rfl rfl rfl

theorem inv_timeoutBody (now idx workerId : Nat) {s : MasterState} (h : Inv s) :
    Inv (timeoutBody now idx workerId s) := by
  unfold timeoutBody
  split
  · next hip =>
    obtain ⟨t, hget, hIP⟩ := h.inProgMem idx hip
    have key : Inv
        { s with inProgress := setDel s.inProgress idx
                 tasks := updTask s.tasks idx
                   (fun t => { t with status := .TimedOut, progress := 0 })
                 timedOutTasks := s.timedOutTasks + 1
                 totalProcessedTasks := s.totalProcessedTasks + 1 } := by
      refine ⟨?_, ?_, ?_, ?_, ?_, ?_, ?_, ?_, h.queueNodup, h.workersLt, h.workersNodup⟩
      · show (updTask s.tasks idx _).length = s.urls.length
        rw [updTask_length]; exact h.tasksLen
      · show s.completedTasks = statusCount (updTask s.tasks idx _) .Completed
        rw [statusCount_updTask_of_ne hget (by rw [hIP]; intro hc; cases hc)
          (by intro hc; cases hc)]
        exact h.compCount
      · show s.timedOutTasks + 1 = statusCount (updTask s.tasks idx _) .TimedOut
        rw [statusCount_updTask_succ hget (by rw [hIP]; intro hc; cases hc) rfl]
        rw [h.toCount]
      · show s.totalProcessedTasks + 1 = s.completedTasks + (s.timedOutTasks + 1)
        have := h.totalEq
        omega
      · intro i hi
        rcases mem_setDel.mp hi with ⟨hi, hne⟩
        obtain ⟨u, hu, huIP⟩ := h.inProgMem i hi
        exact ⟨u, by rw [getElem?_updTask_ne _ hne]; exact hu, huIP⟩
      · intro i u hu huIP
        have hne : i ≠ idx := by
          rintro rfl
          rw [getElem?_updTask_self _ hget] at hu
          cases hu
          cases huIP
        rw [getElem?_updTask_ne _ hne] at hu
        exact mem_setDel.mpr ⟨h.inProgInv i u hu huIP, hne⟩
      · intro q hqm
        obtain ⟨u, hu, hP⟩ := h.queueMem q hqm
        have hne : q.index ≠ idx := by
          rintro rfl
          rw [hget] at hu
          cases hu
          rw [hIP] at hP
          cases hP
        exact ⟨u, by rw [getElem?_updTask_ne _ hne]; exact hu, hP⟩
      · intro i u hu hP
        have hne : i ≠ idx := by
          rintro rfl
          rw [getElem?_updTask_self _ hget] at hu
          cases hu
          cases hP
        rw [getElem?_updTask_ne _ hne] at hu
        exact h.queueInv i u hu hP
    exact inv_assignTask _ _ (inv_checkCompletion key)
  · exact h

theorem inv_fireTimer (now idx workerId : Nat) {s : MasterState} (h : Inv s) :
    Inv (fireTimer now idx workerId s) :=
  inv_timeoutBody _ _ _
    (inv_transport h rfl rfl rfl rfl rfl rfl rfl rfl rfl)

theorem inv_handleCompleted (now idx workerId : Nat) (art : String)
    {s : MasterState} (h : Inv s) : Inv (handleCompleted now idx workerId art s) := by
  unfold handleCompleted
  split
  · exact h
  · next t hget =>
    split
    · next hIP =>
      have key : Inv
          { s with timers := s.timers.filter (fun p => decide (p.1 ≠ idx))
                   inProgress := setDel s.inProgress idx
                   tasks := updTask s.tasks idx (fun u => { u with status := .Completed })
                   pdfInfo := mapSet s.pdfInfo idx art
                   completedTasks := s.completedTasks + 1
                   totalProcessedTasks := s.totalProcessedTasks + 1 } := by
        refine ⟨?_, ?_, ?_, ?_, ?_, ?_, ?_, ?_, h.queueNodup, h.workersLt, h.workersNodup⟩
        · show (updTask s.tasks idx _).length = s.urls.length
          rw [updTask_length]; exact h.tasksLen
        · show s.completedTasks + 1 = statusCount (updTask s.tasks idx _) .Completed
          rw [statusCount_updTask_succ hget (by rw [hIP]; intro hc; cases hc) rfl]
          rw [h.compCount]
        · show s.timedOutTasks = statusCount (updTask s.tasks idx _) .TimedOut
          rw [statusCount_updTask_of_ne hget (by rw [hIP]; intro hc; cases hc)
            (by intro hc; cases hc)]
          exact h.toCount
        · show s.totalProcessedTasks + 1 = (s.completedTasks + 1) + s.timedOutTasks
          have := h.totalEq
          omega
        · intro i hi
          rcases mem_setDel.mp hi with ⟨hi, hne⟩
          obtain ⟨u, hu, huIP⟩ := h.inProgMem i hi
          exact ⟨u, by rw [getElem?_updTask_ne _ hne]; exact hu, huIP⟩
        · intro i u hu huIP
          have hne : i ≠ idx := by
            rintro rfl
            rw [getElem?_updTask_self _ hget] at hu
            cases hu
            cases huIP
          rw [getElem?_updTask_ne _ hne] at hu
          exact mem_setDel.mpr ⟨h.inProgInv i u hu huIP, hne⟩
        · intro q hqm
          obtain ⟨u, hu, hP⟩ := h.queueMem q hqm
          have hne : q.index ≠ idx := by
            rintro rfl
            rw [hget] at hu
            cases hu
            rw [hIP] at hP
            cases hP
          exact ⟨u, by rw [getElem?_updTask_ne _ hne]; exact hu, hP⟩
        · intro i u hu hP
          have hne : i ≠ idx := by
            rintro rfl
            rw [getElem?_updTask_self _ hget] at hu
            cases hu
            cases hP
          rw [getElem?_updTask_ne _ hne] at hu
          exact h.queueInv i u hu hP
      exact inv_assignTask _ _ (inv_checkCompletion key)
    · exact inv_transport h rfl rfl rfl rfl rfl rfl rfl rfl rfl

theorem inv_handleProgress (idx p : Nat) {s : MasterState} (h : Inv s) :
    Inv (handleProgress idx p s) := by
  unfold handleProgress
  split
  · exact h
  · next t hget =>
    split
    · next hIP =>
      refine ⟨?_, ?_, ?_, h.totalEq, ?_, ?_, ?_, ?_, h.queueNodup, h.workersLt,
        h.workersNodup⟩
      · show (updTask s.tasks idx _).length = s.urls.length
        rw [updTask_length]; exact h.tasksLen
      · show s.completedTasks = statusCount (updTask s.tasks idx _) .Completed
        rw [statusCount_updTask_same hget rfl]
        exact h.compCount
      · show s.timedOutTasks = statusCount (updTask s.tasks idx _) .TimedOut
        rw [statusCount_updTask_same hget rfl]
        exact h.toCount
      · intro i hi
        obtain ⟨u, hu, huIP⟩ := h.inProgMem i hi
        by_cases hne : i = idx
        · subst hne
          exact ⟨_, getElem?_updTask_self _ hget, hIP⟩
        · exact ⟨u, by rw [getElem?_updTask_ne _ hne]; exact hu, huIP⟩
      · intro i u hu huIP
        by_cases hne : i = idx
        · subst hne
          exact h.inProgInv _ t hget hIP
        · rw [getElem?_updTask_ne _ hne] at hu
          exact h.inProgInv i u hu huIP
      · intro q hqm
        obtain ⟨u, hu, hP⟩ := h.queueMem q hqm
        have hne : q.index ≠ idx := by
          rintro rfl
          rw [hget] at hu
          cases hu
          rw [hIP] at hP
          cases hP
        exact ⟨u, by rw [getElem?_updTask_ne _ hne]; exact hu, hP⟩
      · intro i u hu hP
        have hne : i ≠ idx := by
          rintro rfl
          rw [getElem?_updTask_self _ hget] at hu
          cases hu
          rw [hIP] at hP
          cases hP
        rw [getElem?_updTask_ne _ hne] at hu
        exact h.queueInv i u hu hP
    · exact h

theorem inv_handleStatusMsg (workerId : Nat) (txt : String) {s : MasterState}
    (h : Inv s) : Inv (handleStatusMsg workerId txt s) :=
  inv_transport h rfl rfl rfl rfl rfl rfl rfl rfl rfl

theorem inv_handleOnline (now workerId : Nat) {s : MasterState} (h : Inv s) :
    Inv (handleOnline now workerId s) :=
  inv_assignTask _ _ (inv_transport h rfl rfl rfl rfl rfl rfl rfl rfl rfl)

theorem inv_handleExit (workerId : Nat) {s : MasterState} (h : Inv s) :
    Inv (handleExit workerId s) := by
  unfold handleExit
  dsimp only
  split
  · refine ⟨h.tasksLen, h.compCount, h.toCount, h.totalEq, h.inProgMem, h.inProgInv,
      h.queueMem, h.queueInv, h.queueNodup, ?_, ?_⟩
    · intro w hw
      show w < s.nextWorkerId + 1
      rcases List.mem_append.mp hw with hw | hw
      · rcases mem_setDel.mp hw with ⟨hw, _⟩
        have := h.workersLt w hw
        omega
      · rcases List.mem_singleton.mp hw with rfl
        omega
    · show (setDel s.workers workerId ++ [s.nextWorkerId]).Nodup
      have hnd : (setDel s.workers workerId).Nodup := h.workersNodup.filter _
      have hnm : s.nextWorkerId ∉ setDel s.workers workerId := by
        intro hc
        rcases mem_setDel.mp hc with ⟨hc, _⟩
        exact absurd (h.workersLt _ hc) (by omega)
      simp [List.nodup_append, hnd, hnm]
  · refine ⟨h.tasksLen, h.compCount, h.toCount, h.totalEq, h.inProgMem, h.inProgInv,
      h.queueMem, h.queueInv, h.queueNodup, ?_, ?_⟩
    · intro w hw
      rcases mem_setDel.mp hw with ⟨hw, _⟩
      exact h.workersLt w hw
    · exact h.workersNodup.filter _

theorem statusCount_init (l : List String) (st : TStatus) (h : st ≠ TStatus.Pending) :
    statusCount (l.map fun _ => { status := .Pending, progress := 0 }) st = 0 := by
  induction l with
  | nil => rfl
  | cons a l ih =>
    rw [List.map_cons, statusCount_cons, ih]
    simp [Ne.symm h]

theorem inv_init (urls : List String) (numCPUs : Nat) : Inv (initMaster urls numCPUs) := by
  refine ⟨?_, ?_, ?_, rfl, ?_, ?_, ?_, ?_, ?_, ?_, ?_⟩
  · show (urls.map _).length = urls.length
    rw [List.length_map]
  · exact (statusCount_init urls .Completed (by intro hc; cases hc)).symm
  · exact (statusCount_init urls .TimedOut (by intro hc; cases hc)).symm
  · intro i hi
    exact absurd hi (List.not_mem_nil i)
  · intro i t hget hIP
    show i ∈ ([] : List Nat)
    rw [show (initMaster urls numCPUs).tasks
      = urls.map (fun _ => { status := .Pending, progress := 0 }) from rfl,
      List.getElem?_map] at hget
    cases h2 : urls[i]? with
    | none => rw [h2] at hget; cases hget
    | some u =>
      rw [h2, Option.map_some'] at hget
      cases hget
      cases hIP
  · intro q hq
    rcases List.mem_map.mp hq with ⟨p, hp, rfl⟩
    have hgp := List.mem_enum_iff_getElem?.mp hp
    refine ⟨{ status := .Pending, progress := 0 }, ?_, rfl⟩
    show (urls.map _)[p.1]? = _
    rw [List.getElem?_map, hgp, Option.map_some']
  · intro i t hget hP
    have hlt : i < urls.length := by
      have h3 := (List.getElem?_eq_some.mp hget).1
      simpa [initMaster] using h3
    show i ∈ List.map QTask.index (urls.enum.map fun p => { url := p.2, index := p.1 })
    rw [List.map_map, show (QTask.index ∘ fun p : Nat × String =>
      ({ url := p.2, index := p.1 } : QTask)) = Prod.fst from rfl, List.enum_map_fst]
    exact List.mem_range.mpr hlt
  · show (List.map QTask.index (urls.enum.map fun p => { url := p.2, index := p.1 })).Nodup
    rw [List.map_map, show (QTask.index ∘ fun p : Nat × String =>
      ({ url := p.2, index := p.1 } : QTask)) = Prod.fst from rfl, List.enum_map_fst]
    exact List.nodup_range urls.length
  · intro w hw
    rcases List.mem_map.mp hw with ⟨i, hi, rfl⟩
    exact Nat.succ_lt_succ (List.mem_range.mp hi)
  · refine List.Nodup.map ?_ (List.nodup_range numCPUs)
    intro a b hab
    exact Nat.succ_injective hab

/-! ### The url list is immutable -/

theorem urls_checkCompletion (s : MasterState) : (checkCompletion s).urls = s.urls := by
  unfold checkCompletion
  split <;> rfl

theorem urls_assignTask (now workerId : Nat) (s : MasterState) :
    (assignTask now workerId s).urls = s.urls := by
  unfold assignTask
  split
  · rfl
  · dsimp only
    split <;> rfl

theorem urls_timeoutBody (now idx workerId : Nat) (s : MasterState) :
    (timeoutBody now idx workerId s).urls = s.urls := by
  unfold timeoutBody
  split
  · rw [urls_assignTask, urls_checkCompletion]
  · rfl

theorem urls_fireTimer (now idx workerId : Nat) (s : MasterState) :
    (fireTimer now idx workerId s).urls = s.urls := by
  unfold fireTimer
  rw [urls_timeoutBody]

theorem urls_handleCompleted (now idx workerId : Nat) (art : String) (s : MasterState) :
    (handleCompleted now idx workerId art s).urls = s.urls := by
  unfold handleCompleted
  split
  · rfl
  · split
    · rw [urls_assignTask, urls_checkCompletion]
    · rfl

theorem urls_handleProgress (idx p : Nat) (s : MasterState) :
    (handleProgress idx p s).urls = s.urls := by
  unfold handleProgress
  split
  · rfl
  · split <;> rfl

theorem urls_handleExit (workerId : Nat) (s : MasterState) :
    (handleExit workerId s).urls = s.urls := by
  unfold handleExit
  dsimp only
  split <;> rfl

theorem urls_handleOnline (now workerId : Nat) (s : MasterState) :
    (handleOnline now workerId s).urls = s.urls := by
  unfold handleOnline
  rw [urls_assignTask]

theorem step_urls {s s2 : MasterState} {e : MEvent} (hs : Step s e s2) :
    s2.urls = s.urls := by
  cases hs with
  | online _ _ _ => exact urls_handleOnline _ _ _
  | exited _ _ => exact urls_handleExit _ _
  | timer _ _ => exact urls_fireTimer _ _ _ _
  | completed _ _ _ => exact urls_handleCompleted _ _ _ _ _
  | progressMsg _ _ => exact urls_handleProgress _ _ _
  | statusMsg _ => rfl

theorem inv_step {s s2 : MasterState} {e : MEvent} (hs : Step s e s2) (h : Inv s) :
    Inv s2 := by
  cases hs with
  | online _ _ _ => exact inv_handleOnline _ _ h
  | exited _ _ => exact inv_handleExit _ h
  | timer _ _ => exact inv_fireTimer _ _ _ h
  | completed _ _ _ => exact inv_handleCompleted _ _ _ _ h
  | progressMsg _ _ => exact inv_handleProgress _ _ h
  | statusMsg _ => exact inv_handleStatusMsg _ _ h

/-- Every reachable master state satisfies the invariant. -/
theorem reachable_inv {urls : List String} {numCPUs : Nat} {s : MasterState}
    (h : Reachable urls numCPUs s) : Inv s := by
  induction h with
  | init => exact inv_init urls numCPUs
  | step _ hs ih => exact inv_step hs ih

/-- The url list of a reachable state is the input list. -/
theorem reachable_urls {urls : List String} {numCPUs : Nat} {s : MasterState}
    (h : Reachable urls numCPUs s) : s.urls = urls := by
  induction h with
  | init => rfl
  | step _ hs ih => rw [step_urls hs, ih]

/-! ### Frame lemmas: fields the handlers leave unchanged -/

theorem checkCompletion_tasks (s : MasterState) : (checkCompletion s).tasks = s.tasks := by
  unfold checkCompletion
  split <;> rfl

theorem checkCompletion_taskQueue (s : MasterState) :
    (checkCompletion s).taskQueue = s.taskQueue := by
  unfold checkCompletion
  split <;> rfl

theorem checkCompletion_inProgress (s : MasterState) :
    (checkCompletion s).inProgress = s.inProgress := by
  unfold checkCompletion
  split <;> rfl

theorem checkCompletion_pdfInfo (s : MasterState) :
    (checkCompletion s).pdfInfo = s.pdfInfo := by
  unfold checkCompletion
  split <;> rfl

theorem checkCompletion_completedTasks (s : MasterState) :
    (checkCompletion s).completedTasks = s.completedTasks := by
  unfold checkCompletion
  split <;> rfl

theorem checkCompletion_timedOutTasks (s : MasterState) :
    (checkCompletion s).timedOutTasks = s.timedOutTasks := by
  unfold checkCompletion
  split <;> rfl

theorem checkCompletion_totalProcessedTasks (s : MasterState) :
    (checkCompletion s).totalProcessedTasks = s.totalProcessedTasks := by
  unfold checkCompletion
  split <;> rfl

theorem checkCompletion_timers (s : MasterState) :
    (checkCompletion s).timers = s.timers := by
  unfold checkCompletion
  split <;> rfl

theorem checkCompletion_sent (s : MasterState) : (checkCompletion s).sent = s.sent := by
  unfold checkCompletion
  split <;> rfl

theorem checkCompletion_startTimes (s : MasterState) :
    (checkCompletion s).startTimes = s.startTimes := by
  unfold checkCompletion
  split <;> rfl

theorem assignTask_completedTasks (now workerId : Nat) (s : MasterState) :
    (assignTask now workerId s).completedTasks = s.completedTasks := by
  unfold assignTask
  split
  · rfl
  · dsimp only
    split <;> rfl

theorem assignTask_timedOutTasks (now workerId : Nat) (s : MasterState) :
    (assignTask now workerId s).timedOutTasks = s.timedOutTasks := by
  unfold assignTask
  split
  · rfl
  · dsimp only
    split <;> rfl

theorem assignTask_totalProcessedTasks (now workerId : Nat) (s : MasterState) :
    (assignTask now workerId s).totalProcessedTasks = s.totalProcessedTasks := by
  unfold assignTask
  split
  · rfl
  · dsimp only
    split <;> rfl

theorem assignTask_pdfInfo (now workerId : Nat) (s : MasterState) :
    (assignTask now workerId s).pdfInfo = s.pdfInfo := by
  unfold assignTask
  split
  · rfl
  · dsimp only
    split <;> rfl

theorem assignTask_intervalActive (now workerId : Nat) (s : MasterState) :
    (assignTask now workerId s).intervalActive = s.intervalActive := by
  unfold assignTask
  split
  · rfl
  · dsimp only
    split <;> rfl

theorem assignTask_finalEmits (now workerId : Nat) (s : MasterState) :
    (assignTask now workerId s).finalEmits = s.finalEmits := by
  unfold assignTask
  split
  · rfl
  · dsimp only
    split <;> rfl

theorem assignTask_workers (now workerId : Nat) (s : MasterState) :
    (assignTask now workerId s).workers = s.workers := by
  unfold assignTask
  split
  · rfl
  · dsimp only
    split <;> rfl

theorem assignTask_tasks_ne (now workerId : Nat) (s : MasterState) {idx : Nat}
    (h : ∀ q ∈ s.taskQueue, q.index ≠ idx) :
    (assignTask now workerId s).tasks[idx]? = s.tasks[idx]? := by
  cases hq : s.taskQueue with
  | nil => rw [assignTask_nil _ _ hq]
  | cons task rest =>
    have hne : idx ≠ task.index := Ne.symm (h task (by rw [hq]; exact List.mem_cons_self _ _))
    by_cases hw : workerId ∈ s.workers
    · rw [assignTask_cons _ hq hw]
      exact getElem?_updTask_ne _ hne
    · rw [assignTask_cons_crash _ hq hw]
      exact getElem?_updTask_ne _ hne

theorem assignTask_timers_subset (now workerId : Nat) (s : MasterState) {idx w : Nat}
    (h : ∀ q ∈ s.taskQueue, q.index ≠ idx)
    (hmem : (idx, w) ∈ (assignTask now workerId s).timers) : (idx, w) ∈ s.timers := by
  rcases hq : s.taskQueue with _ | ⟨task, rest⟩
  · rwa [assignTask_nil _ _ hq] at hmem
  · have hne : task.index ≠ idx := h task (by rw [hq]; exact List.mem_cons_self _ _)
    by_cases hw : workerId ∈ s.workers
    · rw [assignTask_cons _ hq hw] at hmem
      rcases List.mem_append.mp hmem with hmem | hmem
      · exact hmem
      · rcases List.mem_singleton.mp hmem with heq
        cases heq
        exact absurd rfl hne
    · rwa [assignTask_cons_crash _ hq hw] at hmem

/-! ### Reachability of the concrete demonstration states -/

theorem exA1_reachable : Reachable ["a", "b"] 1 exA1 := by
  show Reachable ["a", "b"] 1 (handleOnline 5 1 exA0)
  exact Reachable.step Reachable.init (Step.online (by decide) (by decide) rfl)

theorem exA2_reachable : Reachable ["a", "b"] 1 exA2 := by
  show Reachable ["a", "b"] 1 (fireTimer 400 0 1 exA1)
  exact Reachable.step exA1_reachable (Step.timer (by decide) (by decide))

theorem exB1_reachable : Reachable ["a"] 1 exB1 := by
  show Reachable ["a"] 1 (handleOnline 3 1 exB0)
  exact Reachable.step Reachable.init (Step.online (by decide) (by decide) rfl)

theorem exB2_reachable : Reachable ["a"] 1 exB2 := by
  show Reachable ["a"] 1 (fireTimer 301 0 1 exB1)
  exact Reachable.step exB1_reachable (Step.timer (by decide) (by decide))

theorem exD1_reachable : Reachable ["a", "b"] 1 exD1 := by
  show Reachable ["a", "b"] 1 (handleExit 1 exA1)
  exact Reachable.step exA1_reachable (Step.exited (by decide) (by decide))

/-! ### The claims -/

/-- C9: for every current date and job index, the artifact name produced
by the job executor (`fileNameFor`, from `processUrl`) is a pure function
of its inputs and equals the spec's format: two-digit month, two-digit
day, hyphen, two-digit 1-based job index, `.pdf` — checked against the
spec-side `specArtifactName` for all inputs, and evaluated on samples. -/
theorem c9_artifact_name_format :
    (∀ monthZeroBased day index,
      fileNameFor monthZeroBased day index = specArtifactName (monthZeroBased + 1) day index)
    ∧ fileNameFor 11 5 0 = "1205-01.pdf" ∧ fileNameFor 0 1 41 = "0101-42.pdf" := by
  refine ⟨fun _ _ _ => rfl, ?_, ?_⟩ <;> decide

/-- C7 fails on the code: the startup loop forks `numCPUs` workers
unconditionally, so with 2 CPUs and a single url the master spawns 2
workers, not `min 2 1 = 1` as the claim states. -/
theorem c7_counterexample :
    (initMaster ["u"] 2).workers.length = 2
    ∧ min 2 (["u"] : List String).length = 1
    ∧ ¬ (initMaster ["u"] 2).workers.length = min 2 (["u"] : List String).length := by
  refine ⟨rfl, rfl, by decide⟩

/-- C7 amended: at startup the worker pool spawns exactly
`numCPUs` workers (the concurrency bound, host parallelism by default),
regardless of the pending job count; extra workers beyond the job count
simply find an empty queue. -/
theorem c7_amended_spawn_count (urls : List String) (numCPUs : Nat) :
    (initMaster urls numCPUs).workers.length = numCPUs
    ∧ (initMaster urls numCPUs).pendingOnline.length = numCPUs := by
  constructor <;> simp [initMaster]

/-- C4 fails on the code: `checkCompletion` has no reentrancy guard, so
at a state whose every task is processed, invoking it twice runs the
shutdown block (final console update and summary emission) twice, not at
most once. -/
theorem c4_counterexample :
    exFull.totalProcessedTasks = exFull.urls.length
    ∧ exFull.finalEmits = 0
    ∧ (checkCompletion (checkCompletion exFull)).finalEmits = 2
    ∧ ¬ (checkCompletion (checkCompletion exFull)).finalEmits ≤ 1 :=
  ⟨rfl, rfl, rfl, by decide⟩

/-- C4 amended: each invocation of `checkCompletion` at a fully-processed
state re-runs the shutdown block and emits the final summary again (the
emission count grows with every call); only the interval-stop and the
worker-kill are idempotent in effect, and the registry and counters are
untouched. -/
theorem c4_amended_no_guard {s : MasterState}
    (h : s.totalProcessedTasks = s.urls.length) :
    (checkCompletion s).intervalActive = false
    ∧ (checkCompletion s).workers = []
    ∧ (checkCompletion (checkCompletion s)).intervalActive = false
    ∧ (checkCompletion (checkCompletion s)).workers = []
    ∧ (checkCompletion (checkCompletion s)).finalEmits = s.finalEmits + 2
    ∧ (checkCompletion (checkCompletion s)).tasks = s.tasks
    ∧ (checkCompletion (checkCompletion s)).totalProcessedTasks = s.totalProcessedTasks := by
  have h1 := checkCompletion_eq_pos h
  have h2 : (checkCompletion s).totalProcessedTasks = (checkCompletion s).urls.length := by
    rw [h1]
    exact h
  rw [checkCompletion_eq_pos h2, h1]
  exact ⟨rfl, rfl, rfl, rfl, rfl, rfl, rfl⟩

/-- Witness for the amended C4 at the concrete state `exFull`. -/
theorem c4_amended_no_guard_witness :
    (checkCompletion (checkCompletion exFull)).finalEmits = exFull.finalEmits + 2 :=
  (@c4_amended_no_guard exFull rfl).2.2.2.2.1

/-- C3: in every reachable state, the completion check fires its shutdown
sequence exactly when completed + timed-out equals the number of jobs; at
such a state no task is Pending or In Progress, and firing stops the
console refresh, emits the final counts once more, and kills every
remaining worker unconditionally. -/
theorem c3_completion_check {urls : List String} {numCPUs : Nat} {s : MasterState}
    (hreach : Reachable urls numCPUs s) :
    (s.completedTasks + s.timedOutTasks = urls.length →
      (∀ t ∈ s.tasks, t.status = .Completed ∨ t.status = .TimedOut)
      ∧ (checkCompletion s).intervalActive = false
      ∧ (checkCompletion s).workers = []
      ∧ (checkCompletion s).finalEmits = s.finalEmits + 1)
    ∧ (s.completedTasks + s.timedOutTasks ≠ urls.length → checkCompletion s = s) := by
  have inv := reachable_inv hreach
  have hu := reachable_urls hreach
  constructor
  · intro hsum
    have htot : s.totalProcessedTasks = s.urls.length := by
      rw [inv.totalEq, hu]
      exact hsum
    have hcnt : statusCount s.tasks .Completed + statusCount s.tasks .TimedOut
        = s.tasks.length := by
      rw [← inv.compCount, ← inv.toCount, inv.tasksLen, hu]
      exact hsum
    refine ⟨terminal_of_counts hcnt, ?_, ?_, ?_⟩ <;> rw [checkCompletion_eq_pos htot]
  · intro hne
    apply checkCompletion_eq_neg
    rw [inv.totalEq, hu]
    exact hne

/-- Witness for C3 at the reachable state `exB2`, whose single task has
timed out. -/
theorem c3_completion_check_witness :
    (∀ t ∈ exB2.tasks, t.status = .Completed ∨ t.status = .TimedOut)
    ∧ (checkCompletion exB2).intervalActive = false
    ∧ (checkCompletion exB2).finalEmits = exB2.finalEmits + 1 := by
  have h := (c3_completion_check exB2_reachable).1 (by decide)
  exact ⟨h.1, h.2.1, h.2.2.2⟩

/-- C6: `assignTask` on an existing worker: with an empty pending queue
it is a no-op; otherwise it pops exactly the queue head (FIFO, input
order), records the start timestamp, marks the popped task In Progress
at progress 10, sends it to that worker, and arms a watchdog timer for
that (task, worker) pair. -/
theorem c6_assign_fifo {urls : List String} {numCPUs : Nat} {s : MasterState}
    (hreach : Reachable urls numCPUs s) {workerId : Nat} (hw : workerId ∈ s.workers)
    (now : Nat) :
    (s.taskQueue = [] → assignTask now workerId s = s)
    ∧ (∀ task rest, s.taskQueue = task :: rest →
        (assignTask now workerId s).taskQueue = rest
        ∧ mapGet (assignTask now workerId s).startTimes task.index = some now
        ∧ (assignTask now workerId s).tasks[task.index]?
            = some { status := .InProgress, progress := 10 }
        ∧ (assignTask now workerId s).sent = s.sent ++ [(workerId, task)]
        ∧ (assignTask now workerId s).timers = s.timers ++ [(task.index, workerId)]
        ∧ task.index ∈ (assignTask now workerId s).inProgress) := by
  have inv := reachable_inv hreach
  refine ⟨fun hq => assignTask_nil now workerId hq, ?_⟩
  intro task rest hq
  obtain ⟨t, hget, _⟩ := inv.queueMem task (by rw [hq]; exact List.mem_cons_self _ _)
  rw [assignTask_cons now hq hw]
  exact ⟨rfl, mapGet_mapSet_self _ _ _, getElem?_updTask_self _ hget, rfl, rfl,
    mem_setAdd.mpr (Or.inl rfl)⟩

/-- Witness for C6 at the startup state of the single-url run. -/
theorem c6_assign_fifo_witness :
    (assignTask 3 1 exB0).taskQueue = []
    ∧ (assignTask 3 1 exB0).tasks[0]? = some { status := .InProgress, progress := 10 }
    ∧ (assignTask 3 1 exB0).timers = [(0, 1)] := by
  have h := (@c6_assign_fifo ["a"] 1 exB0 Reachable.init 1 (by decide) 3).2
    { url := "a", index := 0 } [] (by decide)
  exact ⟨h.1, h.2.2.1, by rw [h.2.2.2.2.1]; rfl⟩

/-- C5: when a task's watchdog fires while the task is still in the
in-progress set, the dispatcher marks it Timed Out with progress 0,
increments the timed-out and total-processed counters, runs the
completion check (shutting down when this was the last task), and
immediately reassigns the same worker with the next queued task; when
the task is no longer in progress, the firing changes nothing. -/
theorem c5_watchdog {urls : List String} {numCPUs : Nat} {s : MasterState}
    (hreach : Reachable urls numCPUs s) (now idx workerId : Nat) :
    (idx ∈ s.inProgress →
      (fireTimer now idx workerId s).tasks[idx]?
          = some { status := .TimedOut, progress := 0 }
      ∧ (fireTimer now idx workerId s).timedOutTasks = s.timedOutTasks + 1
      ∧ (fireTimer now idx workerId s).totalProcessedTasks = s.totalProcessedTasks + 1
      ∧ (s.totalProcessedTasks + 1 = urls.length →
          (fireTimer now idx workerId s).intervalActive = false
          ∧ (fireTimer now idx workerId s).workers = [])
      ∧ (∀ task rest, s.taskQueue = task :: rest →
          s.totalProcessedTasks + 1 ≠ urls.length → workerId ∈ s.workers →
          (fireTimer now idx workerId s).sent = s.sent ++ [(workerId, task)]
          ∧ (fireTimer now idx workerId s).tasks[task.index]?
              = some { status := .InProgress, progress := 10 }))
    ∧ (idx ∉ s.inProgress →
        fireTimer now idx workerId s = { s with timers := s.timers.erase (idx, workerId) }) := by
  have inv := reachable_inv hreach
  have hu := reachable_urls hreach
  constructor
  · intro hip
    obtain ⟨t, hget, hIP⟩ := inv.inProgMem idx hip
    set sMid : MasterState :=
      { s with timers := s.timers.erase (idx, workerId)
               inProgress := setDel s.inProgress idx
               tasks := updTask s.tasks idx
                 (fun t => { t with status := .TimedOut, progress := 0 })
               timedOutTasks := s.timedOutTasks + 1
               totalProcessedTasks := s.totalProcessedTasks + 1 } with hsMid
    have hfe : fireTimer now idx workerId s
        = assignTask now workerId (checkCompletion sMid) := by
      unfold fireTimer timeoutBody
      rw [if_pos hip, hsMid]
    have hqne : ∀ q ∈ s.taskQueue, q.index ≠ idx := by
      intro q hqm
      obtain ⟨u, hu2, hP⟩ := inv.queueMem q hqm
      rintro rfl
      rw [hget] at hu2
      cases hu2
      rw [hIP] at hP
      cases hP
    have hqMid : sMid.taskQueue = s.taskQueue := by rw [hsMid]
    refine ⟨?_, ?_, ?_, ?_, ?_⟩
    · rw [hfe, assignTask_tasks_ne _ _ _ (by rw [checkCompletion_taskQueue, hqMid]; exact hqne),
        checkCompletion_tasks, hsMid]
      exact getElem?_updTask_self _ hget
    · rw [hfe, assignTask_timedOutTasks, checkCompletion_timedOutTasks, hsMid]
    · rw [hfe, assignTask_totalProcessedTasks, checkCompletion_totalProcessedTasks, hsMid]
    · intro hN
      have hpos : sMid.totalProcessedTasks = sMid.urls.length := by
        rw [hsMid]
        show s.totalProcessedTasks + 1 = s.urls.length
        rw [hu]
        exact hN
      rw [hfe, checkCompletion_eq_pos hpos]
      exact ⟨by rw [assignTask_intervalActive], by rw [assignTask_workers]⟩
    · intro task rest hq hNe hw
      obtain ⟨u, hu2, hP⟩ := inv.queueMem task (by rw [hq]; exact List.mem_cons_self _ _)
      have hne : task.index ≠ idx := hqne task (by rw [hq]; exact List.mem_cons_self _ _)
      have hneg : ¬ sMid.totalProcessedTasks = sMid.urls.length := by
        rw [hsMid]
        show ¬ (s.totalProcessedTasks + 1 = s.urls.length)
        rw [hu]
        exact hNe
      have hqMid2 : sMid.taskQueue = task :: rest := by rw [hqMid, hq]
      have hwMid : workerId ∈ sMid.workers := by rw [hsMid]; exact hw
      rw [hfe, checkCompletion_eq_neg hneg, assignTask_cons now hqMid2 hwMid]
      constructor
      · rw [hsMid]
      · have hget2 : sMid.tasks[task.index]? = some u := by
          rw [hsMid]
          show (updTask s.tasks idx _)[task.index]? = some u
          rw [getElem?_updTask_ne _ hne]
          exact hu2
        exact getElem?_updTask_self _ hget2
  · intro hnot
    unfold fireTimer timeoutBody
    rw [if_neg hnot]

/-- Witness for C5 at the reachable state `exA1`, whose task 0 is in
progress and whose queue still holds task 1. -/
theorem c5_watchdog_witness :
    (fireTimer 400 0 1 exA1).tasks[0]? = some { status := .TimedOut, progress := 0 }
    ∧ (fireTimer 400 0 1 exA1).timedOutTasks = exA1.timedOutTasks + 1
    ∧ (fireTimer 400 0 1 exA1).tasks[1]? = some { status := .InProgress, progress := 10 } := by
  have h := (c5_watchdog exA1_reachable 400 0 1).1 (by decide)
  refine ⟨h.1, h.2.1, ?_⟩
  have h2 := h.2.2.2.2 { url := "b", index := 1 } [] (by decide) (by decide) (by decide)
  exact h2.2

/-- C1: when a `Completed(jobId, artifact)` message arrives for a job
that is still In Progress, the master disarms that job's watchdog, sets
the job's status to Completed (its final state), records the artifact,
increments the completed and total-processed counters, runs the
completion check (shutting down when this was the last job), and
reassigns the freed worker slot with the next queued job. -/
theorem c1_completed_in_progress {urls : List String} {numCPUs : Nat} {s : MasterState}
    (hreach : Reachable urls numCPUs s) (now idx workerId : Nat) (art : String)
    {t : TaskEntry} (hget : s.tasks[idx]? = some t) (hIP : t.status = .InProgress) :
    (handleCompleted now idx workerId art s).tasks[idx]?
        = some { status := .Completed, progress := t.progress }
    ∧ mapGet (handleCompleted now idx workerId art s).pdfInfo idx = some art
    ∧ (handleCompleted now idx workerId art s).completedTasks = s.completedTasks + 1
    ∧ (handleCompleted now idx workerId art s).totalProcessedTasks
        = s.totalProcessedTasks + 1
    ∧ (∀ w, (idx, w) ∉ (handleCompleted now idx workerId art s).timers)
    ∧ (s.totalProcessedTasks + 1 = urls.length →
        (handleCompleted now idx workerId art s).intervalActive = false
        ∧ (handleCompleted now idx workerId art s).workers = [])
    ∧ (∀ task rest, s.taskQueue = task :: rest →
        s.totalProcessedTasks + 1 ≠ urls.length → workerId ∈ s.workers →
        (handleCompleted now idx workerId art s).sent = s.sent ++ [(workerId, task)]
        ∧ (handleCompleted now idx workerId art s).tasks[task.index]?
            = some { status := .InProgress, progress := 10 }) := by
  have inv := reachable_inv hreach
  have hu := reachable_urls hreach
  set sMid : MasterState :=
    { s with timers := s.timers.filter (fun p => decide (p.1 ≠ idx))
             inProgress := setDel s.inProgress idx
             tasks := updTask s.tasks idx (fun u => { u with status := .Completed })
             pdfInfo := mapSet s.pdfInfo idx art
             completedTasks := s.completedTasks + 1
             totalProcessedTasks := s.totalProcessedTasks + 1 } with hsMid
  have hfe : handleCompleted now idx workerId art s
      = assignTask now workerId (checkCompletion sMid) := by
    unfold handleCompleted
    rw [hget]
    dsimp only
    rw [if_pos hIP, hsMid]
  have hqne : ∀ q ∈ s.taskQueue, q.index ≠ idx := by
    intro q hqm
    obtain ⟨u, hu2, hP⟩ := inv.queueMem q hqm
    rintro rfl
    rw [hget] at hu2
    cases hu2
    rw [hIP] at hP
    cases hP
  have hqMid : sMid.taskQueue = s.taskQueue := by rw [hsMid]
  refine ⟨?_, ?_, ?_, ?_, ?_, ?_, ?_⟩
  · rw [hfe, assignTask_tasks_ne _ _ _ (by rw [checkCompletion_taskQueue, hqMid]; exact hqne),
      checkCompletion_tasks, hsMid]
    exact getElem?_updTask_self _ hget
  · rw [hfe, assignTask_pdfInfo, checkCompletion_pdfInfo, hsMid]
    exact mapGet_mapSet_self _ _ _
  · rw [hfe, assignTask_completedTasks, checkCompletion_completedTasks, hsMid]
  · rw [hfe, assignTask_totalProcessedTasks, checkCompletion_totalProcessedTasks, hsMid]
  · intro w hmem
    rw [hfe] at hmem
    have hmem2 := assignTask_timers_subset _ _ _
      (by rw [checkCompletion_taskQueue, hqMid]; exact hqne) hmem
    rw [checkCompletion_timers, hsMid] at hmem2
    rcases List.mem_filter.mp hmem2 with ⟨_, hdec⟩
    simp at hdec
  · intro hN
    have hpos : sMid.totalProcessedTasks = sMid.urls.length := by
      rw [hsMid]
      show s.totalProcessedTasks + 1 = s.urls.length
      rw [hu]
      exact hN
    rw [hfe, checkCompletion_eq_pos hpos]
    exact ⟨by rw [assignTask_intervalActive], by rw [assignTask_workers]⟩
  · intro task rest hq hNe hw
    obtain ⟨u, hu2, hP⟩ := inv.queueMem task (by rw [hq]; exact List.mem_cons_self _ _)
    have hne : task.index ≠ idx := hqne task (by rw [hq]; exact List.mem_cons_self _ _)
    have hneg : ¬ sMid.totalProcessedTasks = sMid.urls.length := by
      rw [hsMid]
      show ¬ (s.totalProcessedTasks + 1 = s.urls.length)
      rw [hu]
      exact hNe
    have hqMid2 : sMid.taskQueue = task :: rest := by rw [hqMid, hq]
    have hwMid : workerId ∈ sMid.workers := by rw [hsMid]; exact hw
    rw [hfe, checkCompletion_eq_neg hneg, assignTask_cons now hqMid2 hwMid]
    constructor
    · rw [hsMid]
    · have hget2 : sMid.tasks[task.index]? = some u := by
        rw [hsMid]
        show (updTask s.tasks idx _)[task.index]? = some u
        rw [getElem?_updTask_ne _ hne]
        exact hu2
      exact getElem?_updTask_self _ hget2

/-- Witness for C1 at the reachable state `exA1`, whose task 0 is In
Progress and whose queue still holds task 1. -/
theorem c1_completed_in_progress_witness :
    (handleCompleted 6 0 1 "x.pdf" exA1).tasks[0]?
        = some { status := .Completed, progress := 10 }
    ∧ mapGet (handleCompleted 6 0 1 "x.pdf" exA1).pdfInfo 0 = some "x.pdf"
    ∧ (handleCompleted 6 0 1 "x.pdf" exA1).completedTasks = exA1.completedTasks + 1 := by
  have h := @c1_completed_in_progress ["a", "b"] 1 exA1 exA1_reachable 6 0 1 "x.pdf"
    { status := .InProgress, progress := 10 } (by decide) rfl
  exact ⟨h.1, h.2.1, h.2.2.1⟩

/-- C2: once a job is terminal (Completed or Timed Out) in a reachable
state, no further event for that job changes its status or any of the
three counters: a late `Completed` only records an artifact note, a late
`Progress` is ignored, and a late watchdog firing only consumes its
timer entry. -/
theorem c2_terminal_immutable {urls : List String} {numCPUs : Nat} {s : MasterState}
    (hreach : Reachable urls numCPUs s) {idx : Nat} {t : TaskEntry}
    (hget : s.tasks[idx]? = some t)
    (hterm : t.status = .Completed ∨ t.status = .TimedOut) :
    (∀ now workerId art,
      (handleCompleted now idx workerId art s).tasks[idx]? = some t
      ∧ (handleCompleted now idx workerId art s).completedTasks = s.completedTasks
      ∧ (handleCompleted now idx workerId art s).timedOutTasks = s.timedOutTasks
      ∧ (handleCompleted now idx workerId art s).totalProcessedTasks
          = s.totalProcessedTasks)
    ∧ (∀ p,
      (handleProgress idx p s).tasks[idx]? = some t
      ∧ (handleProgress idx p s).completedTasks = s.completedTasks
      ∧ (handleProgress idx p s).timedOutTasks = s.timedOutTasks
      ∧ (handleProgress idx p s).totalProcessedTasks = s.totalProcessedTasks)
    ∧ (∀ now workerId,
      (fireTimer now idx workerId s).tasks[idx]? = some t
      ∧ (fireTimer now idx workerId s).completedTasks = s.completedTasks
      ∧ (fireTimer now idx workerId s).timedOutTasks = s.timedOutTasks
      ∧ (fireTimer now idx workerId s).totalProcessedTasks = s.totalProcessedTasks) := by
  have inv := reachable_inv hreach
  have hnIP : ¬ t.status = .InProgress := by
    rcases hterm with h | h <;> rw [h] <;> intro hc <;> cases hc
  refine ⟨?_, ?_, ?_⟩
  · intro now workerId art
    have heq : handleCompleted now idx workerId art s
        = { s with pdfInfo := mapSet s.pdfInfo idx art } := by
      unfold handleCompleted
      rw [hget]
      dsimp only
      rw [if_neg hnIP]
    rw [heq]
    exact ⟨hget, rfl, rfl, rfl⟩
  · intro p
    have heq : handleProgress idx p s = s := by
      unfold handleProgress
      rw [hget]
      dsimp only
      rw [if_neg hnIP]
    rw [heq]
    exact ⟨hget, rfl, rfl, rfl⟩
  · intro now workerId
    have hnp : idx ∉ s.inProgress := by
      intro hc
      obtain ⟨u, hu, huIP⟩ := inv.inProgMem idx hc
      rw [hget] at hu
      cases hu
      exact hnIP huIP
    have heq : fireTimer now idx workerId s
        = { s with timers := s.timers.erase (idx, workerId) } := by
      unfold fireTimer timeoutBody
      rw [if_neg hnp]
    rw [heq]
    exact ⟨hget, rfl, rfl, rfl⟩

/-- Witness for C2 at the reachable state `exA2`, whose task 0 has timed
out: a late `Completed` for it changes neither its status nor any
counter. -/
theorem c2_terminal_immutable_witness :
    (handleCompleted 500 0 1 "late.pdf" exA2).tasks[0]?
        = some { status := .TimedOut, progress := 0 }
    ∧ (handleCompleted 500 0 1 "late.pdf" exA2).completedTasks = exA2.completedTasks
    ∧ (handleCompleted 500 0 1 "late.pdf" exA2).totalProcessedTasks
        = exA2.totalProcessedTasks := by
  have h := (@c2_terminal_immutable ["a", "b"] 1 exA2 exA2_reachable 0
    { status := .TimedOut, progress := 0 } (by decide) (Or.inr rfl)).1 500 1 "late.pdf"
  exact ⟨h.1, h.2.1, h.2.2.2⟩

theorem setDel_eq_of_not_mem {x : Nat} {l : List Nat} (h : x ∉ l) : setDel l x = l := by
  induction l with
  | nil => rfl
  | cons a l ih =>
    have hax : ¬ a = x := fun hc => h (hc ▸ List.mem_cons_self a l)
    have hxl : x ∉ l := fun hc => h (List.mem_cons_of_mem a hc)
    show List.filter _ (a :: l) = a :: l
    rw [List.filter_cons_of_pos (by simpa using hax)]
    exact congrArg (a :: ·) (ih hxl)

theorem setDel_length_of_mem {x : Nat} {l : List Nat} (hnd : l.Nodup) (hm : x ∈ l) :
    (setDel l x).length + 1 = l.length := by
  induction l with
  | nil => cases hm
  | cons a l ih =>
    rcases List.nodup_cons.mp hnd with ⟨hna, hnd2⟩
    by_cases hax : a = x
    · subst hax
      have h1 : setDel (a :: l) a = setDel l a := by
        show List.filter _ (a :: l) = _
        rw [List.filter_cons_of_neg (by simp)]
        rfl
      rw [h1, setDel_eq_of_not_mem hna]
      rfl
    · have hm2 : x ∈ l := by
        rcases List.mem_cons.mp hm with rfl | h2
        · exact absurd rfl hax
        · exact h2
      have h1 : setDel (a :: l) x = a :: setDel l x := by
        show List.filter _ (a :: l) = _
        rw [List.filter_cons_of_pos (by simpa using hax)]
        rfl
      rw [h1]
      have := ih hnd2 hm2
      simp only [List.length_cons]
      omega

/-- C8: on a worker's exit event the worker's slot is removed (its
status entry deleted, its id gone from the pool); when some job is
still Pending or In Progress exactly one replacement worker is forked,
marked Idle, with its `online` callback pending (which will call
`assignTask` on it); when every job is terminal, nothing is forked. -/
theorem c8_worker_exit {urls : List String} {numCPUs : Nat} {s : MasterState}
    (hreach : Reachable urls numCPUs s) {workerId : Nat} (hw : workerId ∈ s.workers) :
    mapGet (handleExit workerId s).workerStatus workerId = none
    ∧ workerId ∉ (handleExit workerId s).workers
    ∧ ((∃ (i : Nat) (t : TaskEntry),
          s.tasks[i]? = some t ∧ (t.status = .Pending ∨ t.status = .InProgress)) →
        (handleExit workerId s).workers.length = s.workers.length
        ∧ s.nextWorkerId ∈ (handleExit workerId s).workers
        ∧ s.nextWorkerId ∈ (handleExit workerId s).pendingOnline
        ∧ mapGet (handleExit workerId s).workerStatus s.nextWorkerId = some "Idle"
        ∧ (handleExit workerId s).nextWorkerId = s.nextWorkerId + 1)
    ∧ ((∀ (i : Nat) (t : TaskEntry),
          s.tasks[i]? = some t → t.status = .Completed ∨ t.status = .TimedOut) →
        (handleExit workerId s).workers = setDel s.workers workerId
        ∧ (handleExit workerId s).workers.length + 1 = s.workers.length
        ∧ (handleExit workerId s).nextWorkerId = s.nextWorkerId) := by
  have inv := reachable_inv hreach
  have hwid_lt := inv.workersLt workerId hw
  by_cases hcond : s.taskQueue.length > 0 ∨ s.inProgress.length > 0
  · have heq : handleExit workerId s =
        { s with workers := setDel s.workers workerId ++ [s.nextWorkerId]
                 workerStatus := mapSet (mapDel s.workerStatus workerId) s.nextWorkerId "Idle"
                 pendingOnline := setDel s.pendingOnline workerId ++ [s.nextWorkerId]
                 nextWorkerId := s.nextWorkerId + 1 } := by
      unfold handleExit
      dsimp only
      rw [if_pos hcond]
    rw [heq]
    refine ⟨?_, ?_, ?_, ?_⟩
    · rw [mapGet_mapSet_ne _ _ (by omega)]
      exact mapGet_mapDel_self _ _
    · intro hc
      rcases List.mem_append.mp hc with hc | hc
      · exact (mem_setDel.mp hc).2 rfl
      · rcases List.mem_singleton.mp hc with heq2
        omega
    · intro _
      refine ⟨?_, ?_, ?_, ?_, rfl⟩
      · show (setDel s.workers workerId ++ [s.nextWorkerId]).length = s.workers.length
        rw [List.length_append]
        have := setDel_length_of_mem inv.workersNodup hw
        simp only [List.length_singleton]
        omega
      · exact List.mem_append.mpr (Or.inr (List.mem_singleton.mpr rfl))
      · exact List.mem_append.mpr (Or.inr (List.mem_singleton.mpr rfl))
      · exact mapGet_mapSet_self _ _ _
    · intro hterm
      exfalso
      rcases hcond with hq | hip
      · rcases hqq : s.taskQueue with _ | ⟨q, rest⟩
        · rw [hqq] at hq
          simp at hq
        · obtain ⟨u, hu, hP⟩ := inv.queueMem q (by rw [hqq]; exact List.mem_cons_self _ _)
          rcases hterm _ _ hu with hc | hc <;> rw [hP] at hc <;> cases hc
      · rcases hii : s.inProgress with _ | ⟨i, rest⟩
        · rw [hii] at hip
          simp at hip
        · obtain ⟨u, hu, hI⟩ := inv.inProgMem i (by rw [hii]; exact List.mem_cons_self _ _)
          rcases hterm _ _ hu with hc | hc <;> rw [hI] at hc <;> cases hc
  · have heq : handleExit workerId s =
        { s with workers := setDel s.workers workerId
                 workerStatus := mapDel s.workerStatus workerId
                 pendingOnline := setDel s.pendingOnline workerId } := by
      unfold handleExit
      dsimp only
      rw [if_neg hcond]
    rw [heq]
    refine ⟨mapGet_mapDel_self _ _, ?_, ?_, ?_⟩
    · intro hc
      exact (mem_setDel.mp hc).2 rfl
    · rintro ⟨i, t, hget, hPI⟩
      exfalso
      apply hcond
      rcases hPI with hP | hI
      · left
        have hmem := inv.queueInv i t hget hP
        rcases List.mem_map.mp hmem with ⟨q, hqm, _⟩
        exact List.length_pos_of_mem hqm
      · right
        exact List.length_pos_of_mem (inv.inProgInv i t hget hI)
    · intro _
      have := setDel_length_of_mem inv.workersNodup hw
      refine ⟨rfl, ?_, rfl⟩
      show (setDel s.workers workerId).length + 1 = s.workers.length
      omega

/-- Witness for C8 at the reachable state `exA1`: worker 1 exits while
task 0 is In Progress, so exactly one replacement (worker 2) is
forked. -/
theorem c8_worker_exit_witness :
    (handleExit 1 exA1).workers.length = exA1.workers.length
    ∧ exA1.nextWorkerId ∈ (handleExit 1 exA1).workers
    ∧ mapGet (handleExit 1 exA1).workerStatus 1 = none := by
  have h := @c8_worker_exit ["a", "b"] 1 exA1 exA1_reachable 1 (by decide)
  have h3 := h.2.2.1 ⟨0, { status := .InProgress, progress := 10 }, by decide, Or.inr rfl⟩
  exact ⟨h3.1, h3.2.1, h.1⟩

/-- C10: a reachable state in which worker 1 exited while task 0's
watchdog is still armed and the queue still holds a task; when the
watchdog fires, the timeout callback reassigns with the captured
worker id without checking that the worker still exists, and
`cluster.workers[1].send` dereferences a deleted handle (modelled by
the `crashed` flag). -/
theorem c10_stale_timer_missing_worker :
    Reachable ["a", "b"] 1 exD1
    ∧ (1 : Nat) ∉ exD1.workers
    ∧ exD1.taskQueue ≠ []
    ∧ (0, 1) ∈ exD1.timers
    ∧ (0 : Nat) ∈ exD1.inProgress
    ∧ exD1.crashed = false
    ∧ Step exD1 (MEvent.timer 310 0 1) exD2
    ∧ exD2.crashed = true := by
  refine ⟨exD1_reachable, by decide, by decide, by decide, by decide, by decide, ?_, by decide⟩
  show Step exD1 (MEvent.timer 310 0 1) (fireTimer 310 0 1 exD1)
  exact Step.timer (by decide) (by decide)

end Url2pdf
